import Mathlib

/-!
Verification of the LLGL device-memory sub-allocator and resource
ownership registry, as exercised by `VKRenderSystem.cpp`, `ComPtr.h`
and `RenderSystem.cpp`.

The chunk/manager implementation (`VKDeviceMemory*`) and the generic
ownership helpers (`TakeOwnership` / `RemoveFromUniqueSet`) are not part
of the sources at hand (only their callers are), so those components are
modelled from the specification; the configuration defaults, the staging
buffer control flow and the `ComPtr` operations are embedded from the
sources directly.
-/

namespace LLGL

/-! ### MemoryChunk model

Modelled from the spec: a `MemoryChunk` keeps "a sorted list of
occupied/free sub-ranges"; the list partitions `[0, total)` into
contiguous blocks, each marked occupied or free. -/

/-- One sub-range of a chunk: byte offset, byte size and whether the
range is currently handed out to a resource. -/
structure VKDeviceMemoryBlock where
  offset : Nat
  size : Nat
  occupied : Bool
deriving DecidableEq, Repr

/-- A chunk: one large device allocation of `total` bytes, tagged with its
compatibility class (memory-type bits and property flags), subdivided into
`blocks`. -/
structure VKDeviceMemoryChunk where
  total : Nat
  memoryTypeBits : Nat
  propertyFlags : Nat
  blocks : List VKDeviceMemoryBlock
deriving DecidableEq, Repr

/-- The block list forms a contiguous partition of `[start, total)`:
each block starts where the previous one ended, has positive size, and
the final block ends exactly at `total`. -/
def chainTo (start total : Nat) : List VKDeviceMemoryBlock → Bool
  | [] => decide (start = total)
  | b :: bs => decide (b.offset = start) && decide (0 < b.size) && chainTo (b.offset + b.size) total bs

/-- Well-formedness of a chunk: its blocks partition `[0, total)`. -/
def chunkWF (c : VKDeviceMemoryChunk) : Bool :=
  chainTo 0 c.total c.blocks

/-- Round `x` up to the next multiple of `a` (the first offset that is at
least `x` and satisfies the alignment constraint). -/
def alignUp (x a : Nat) : Nat :=
  ((x + a - 1) / a) * a

/-- Modelled from the spec: `TryReserve(size, alignment)` "scans free
sub-ranges in ascending offset order; for each, computes the first offset
at least the free range's start satisfying the alignment constraint, and
accepts it if the aligned region plus size still fits inside that free
range". Returns the accepted offset together with the size of the free
range it landed in (the latter feeds the best-fit policy of the manager).
Zero-size requests are never accepted. -/
def tryReserveFit (size align : Nat) : List VKDeviceMemoryBlock → Option (Nat × Nat)
  | [] => none
  | b :: bs =>
    if b.occupied = false ∧ 0 < size ∧ alignUp b.offset align + size ≤ b.offset + b.size then
      some (alignUp b.offset align, b.size)
    else
      tryReserveFit size align bs

/-- The offset-only view of `tryReserveFit`: the spec's
`TryReserve(size, alignment) -> optional<offset>`. -/
def tryReserve (size align : Nat) (bs : List VKDeviceMemoryBlock) : Option Nat :=
  (tryReserveFit size align bs).map Prod.fst

/-- Split one free block around the reserved range `[off, off + size)`:
the unused alignment padding before `off` and the leftover after
`off + size` stay free, the middle becomes occupied. -/
def carve (b : VKDeviceMemoryBlock) (off size : Nat) : List VKDeviceMemoryBlock :=
  (if b.offset < off then [⟨b.offset, off - b.offset, false⟩] else []) ++
  ⟨off, size, true⟩ ::
  (if off + size < b.offset + b.size then [⟨off + size, b.offset + b.size - (off + size), false⟩] else [])

/-- Modelled from the spec: `MarkOccupied(offset, size)` "splits the
matched free range into up to two remaining free sub-ranges ... and
inserts an occupied sub-range". -/
def markOccupied (off size : Nat) : List VKDeviceMemoryBlock → List VKDeviceMemoryBlock
  | [] => []
  | b :: bs =>
    if b.occupied = false ∧ b.offset ≤ off ∧ off + size ≤ b.offset + b.size then
      carve b off size ++ bs
    else
      b :: markOccupied off size bs

/-- Mark the occupied block at exactly `[off, off + size)` free again;
blocks that do not match are left untouched. -/
def releaseBlocks (off size : Nat) : List VKDeviceMemoryBlock → List VKDeviceMemoryBlock
  | [] => []
  | b :: bs =>
    if b.occupied = true ∧ b.offset = off ∧ b.size = size then
      ⟨b.offset, b.size, false⟩ :: bs
    else
      b :: releaseBlocks off size bs

/-- Merge every pair of adjacent free blocks into one larger free block
(coalescing is unconditional and immediate). -/
def mergeFree : List VKDeviceMemoryBlock → List VKDeviceMemoryBlock
  | [] => []
  | a :: rest =>
    match mergeFree rest with
    | [] => [a]
    | b :: bs =>
      if a.occupied = false ∧ b.occupied = false then
        ⟨a.offset, a.size + b.size, false⟩ :: bs
      else
        a :: b :: bs

/-- Modelled from the spec: `Release(offset, size)` "converts the occupied
sub-range back to free, then merges with any adjacent free sub-ranges ...
into a single larger free sub-range". -/
def chunkRelease (off size : Nat) (c : VKDeviceMemoryChunk) : VKDeviceMemoryChunk :=
  { c with blocks := mergeFree (releaseBlocks off size c.blocks) }

/-- A freshly created chunk: a single free block spanning `[0, total)`. -/
def newChunk (total memoryTypeBits propertyFlags : Nat) : VKDeviceMemoryChunk :=
  { total := total
    memoryTypeBits := memoryTypeBits
    propertyFlags := propertyFlags
    blocks := if 0 < total then [⟨0, total, false⟩] else [] }

/-! ### chainTo lemmas -/

theorem chainTo_cons {b : VKDeviceMemoryBlock} {bs : List VKDeviceMemoryBlock} {s t : Nat} :
    chainTo s t (b :: bs) = true ↔ b.offset = s ∧ 0 < b.size ∧ chainTo (b.offset + b.size) t bs = true := by
  simp [chainTo, Bool.and_eq_true, decide_eq_true_eq, and_assoc]

theorem chainTo_nil {s t : Nat} : chainTo s t ([] : List VKDeviceMemoryBlock) = true ↔ s = t := by
  simp [chainTo]

theorem chainTo_append_of {xs ys : List VKDeviceMemoryBlock} {s m t : Nat}
    (hx : chainTo s m xs = true) (hy : chainTo m t ys = true) :
    chainTo s t (xs ++ ys) = true := by
  induction xs generalizing s with
  | nil =>
    rw [chainTo_nil] at hx
    simpa [hx] using hy
  | cons b bs ih =>
    rw [chainTo_cons] at hx
    rw [List.cons_append, chainTo_cons]
    exact ⟨hx.1, hx.2.1, ih hx.2.2⟩

theorem chainTo_le {bs : List VKDeviceMemoryBlock} {s t : Nat}
    (h : chainTo s t bs = true) : s ≤ t := by
  induction bs generalizing s with
  | nil => rw [chainTo_nil] at h; omega
  | cons b bs ih =>
    rw [chainTo_cons] at h
    have := ih h.2.2
    omega

theorem chainTo_bounds {bs : List VKDeviceMemoryBlock} {s t : Nat}
    (h : chainTo s t bs = true) :
    ∀ b ∈ bs, s ≤ b.offset ∧ b.offset + b.size ≤ t := by
  induction bs generalizing s with
  | nil => intro b hb; cases hb
  | cons x xs ih =>
    rw [chainTo_cons] at h
    intro b hb
    cases hb with
    | head =>
      have := chainTo_le h.2.2
      omega
    | tail _ hmem =>
      have := ih h.2.2 b hmem
      omega

theorem chainTo_pairwise {bs : List VKDeviceMemoryBlock} {s t : Nat}
    (h : chainTo s t bs = true) :
    bs.Pairwise (fun x y => x.offset + x.size ≤ y.offset) := by
  induction bs generalizing s with
  | nil => exact List.Pairwise.nil
  | cons x xs ih =>
    rw [chainTo_cons] at h
    refine List.Pairwise.cons ?_ (ih h.2.2)
    intro y hy
    have := chainTo_bounds h.2.2 y hy
    omega

theorem chainTo_cover {bs : List VKDeviceMemoryBlock} {s t : Nat}
    (h : chainTo s t bs = true) :
    ∀ x, s ≤ x → x < t → ∃ b ∈ bs, b.offset ≤ x ∧ x < b.offset + b.size := by
  induction bs generalizing s with
  | nil =>
    rw [chainTo_nil] at h
    intro x hx hxt
    omega
  | cons b bs ih =>
    rw [chainTo_cons] at h
    intro x hx hxt
    by_cases hcase : x < b.offset + b.size
    · exact ⟨b, List.mem_cons_self b bs, by omega, hcase⟩
    · obtain ⟨c, hc, h1, h2⟩ := ih h.2.2 x (by omega) hxt
      exact ⟨c, List.mem_cons_of_mem _ hc, h1, h2⟩

/-! ### Preservation of the partition invariant -/

theorem carve_chain {b : VKDeviceMemoryBlock} {off size : Nat}
    (h1 : b.offset ≤ off) (h2 : off + size ≤ b.offset + b.size) (h3 : 0 < size) :
    chainTo b.offset (b.offset + b.size) (carve b off size) = true := by
  unfold carve
  by_cases hpre : b.offset < off <;> by_cases hpost : off + size < b.offset + b.size <;>
    simp [hpre, hpost, chainTo] <;> omega

theorem markOccupied_chain {bs : List VKDeviceMemoryBlock} {s t off size : Nat}
    (h : chainTo s t bs = true) (hsize : 0 < size) :
    chainTo s t (markOccupied off size bs) = true := by
  induction bs generalizing s with
  | nil => simpa [markOccupied] using h
  | cons b bs ih =>
    rw [chainTo_cons] at h
    rw [markOccupied]
    split
    · next hcond =>
      have hcarve := carve_chain hcond.2.1 hcond.2.2 hsize
      rw [h.1] at hcarve
      exact chainTo_append_of hcarve (by rw [h.1] at h; exact h.2.2)
    · rw [chainTo_cons]
      exact ⟨h.1, h.2.1, ih h.2.2⟩

theorem releaseBlocks_chain {bs : List VKDeviceMemoryBlock} {s t off size : Nat}
    (h : chainTo s t bs = true) :
    chainTo s t (releaseBlocks off size bs) = true := by
  induction bs generalizing s with
  | nil => simpa [releaseBlocks] using h
  | cons b bs ih =>
    rw [chainTo_cons] at h
    rw [releaseBlocks]
    split
    · rw [chainTo_cons]
      exact ⟨h.1, h.2.1, h.2.2⟩
    · rw [chainTo_cons]
      exact ⟨h.1, h.2.1, ih h.2.2⟩

theorem mergeFree_chain {bs : List VKDeviceMemoryBlock} {s t : Nat}
    (h : chainTo s t bs = true) :
    chainTo s t (mergeFree bs) = true := by
  induction bs generalizing s with
  | nil => simpa [mergeFree] using h
  | cons a rest ih =>
    rw [chainTo_cons] at h
    obtain ⟨hoff, hsz, hrest⟩ := h
    have hm := ih hrest
    rcases hmf : mergeFree rest with _ | ⟨b, bs2⟩
    · have hstep : mergeFree (a :: rest) = [a] := by rw [mergeFree, hmf]
      rw [hmf, chainTo_nil] at hm
      rw [hstep, chainTo_cons, chainTo_nil]
      exact ⟨hoff, hsz, hm⟩
    · have hstep : mergeFree (a :: rest) =
          if a.occupied = false ∧ b.occupied = false then
            ⟨a.offset, a.size + b.size, false⟩ :: bs2
          else a :: b :: bs2 := by rw [mergeFree, hmf]
      rw [hmf, chainTo_cons] at hm
      obtain ⟨hboff, hbsz, hbrest⟩ := hm
      rw [hstep]
      by_cases hfree : a.occupied = false ∧ b.occupied = false
      · rw [if_pos hfree]
        rw [chainTo_cons]
        refine ⟨hoff, ?_, ?_⟩
        · show 0 < a.size + b.size
          omega
        · show chainTo (a.offset + (a.size + b.size)) t bs2 = true
          have heq : a.offset + (a.size + b.size) = b.offset + b.size := by omega
          rw [heq]
          exact hbrest
      · rw [if_neg hfree]
        rw [chainTo_cons]
        refine ⟨hoff, hsz, ?_⟩
        rw [chainTo_cons]
        exact ⟨hboff, hbsz, hbrest⟩

theorem tryReserveFit_pos {bs : List VKDeviceMemoryBlock} {size align off rsz : Nat}
    (h : tryReserveFit size align bs = some (off, rsz)) : 0 < size := by
  induction bs with
  | nil => simp [tryReserveFit] at h
  | cons b bs ih =>
    rw [tryReserveFit] at h
    split at h
    · next hc => exact hc.2.1
    · exact ih h

theorem alignUp_mod (x a : Nat) : alignUp x a % a = 0 := by
  unfold alignUp
  exact Nat.mul_mod_left _ _

theorem le_alignUp {x a : Nat} (ha : 0 < a) : x ≤ alignUp x a := by
  unfold alignUp
  have h1 := Nat.div_add_mod (x + a - 1) a
  rw [Nat.mul_comm] at h1
  have h2 := Nat.mod_lt (x + a - 1) ha
  omega

/-- Where `tryReserveFit` succeeds, the matched block is free, contains the
aligned reserved range, and its size is the reported free-range size. -/
theorem tryReserveFit_sound {bs : List VKDeviceMemoryBlock} {size align off rsz : Nat}
    (ha : 0 < align)
    (h : tryReserveFit size align bs = some (off, rsz)) :
    ∃ b ∈ bs, b.occupied = false ∧ b.offset ≤ off ∧ off + size ≤ b.offset + b.size ∧
      b.size = rsz ∧ off = alignUp b.offset align := by
  induction bs with
  | nil => simp [tryReserveFit] at h
  | cons b bs ih =>
    rw [tryReserveFit] at h
    split at h
    · next hc =>
      rw [Option.some_inj, Prod.mk.injEq] at h
      refine ⟨b, List.mem_cons_self b bs, hc.1, ?_, ?_, h.2, h.1.symm⟩
      · rw [← h.1]
        exact le_alignUp ha
      · rw [← h.1]
        exact hc.2.2
    · obtain ⟨c, hc, hprops⟩ := ih h
      exact ⟨c, List.mem_cons_of_mem _ hc, hprops⟩

/-- Offsets returned by `tryReserve` satisfy the alignment constraint and
fit, together with the requested size, below the chain's upper end. -/
theorem tryReserve_aligned_bounded {bs : List VKDeviceMemoryBlock} {s t size align off : Nat}
    (ha : 0 < align) (hch : chainTo s t bs = true)
    (h : tryReserve size align bs = some off) :
    off % align = 0 ∧ off + size ≤ t := by
  unfold tryReserve at h
  match hfit : tryReserveFit size align bs with
  | none => rw [hfit] at h; simp at h
  | some (o, r) =>
    rw [hfit] at h
    simp at h
    obtain ⟨b, hb, _, _, hfits, _, ho⟩ := tryReserveFit_sound ha hfit
    have hbounds := chainTo_bounds hch b hb
    subst h
    exact ⟨ho ▸ alignUp_mod b.offset align, by omega⟩

/-! ### DeviceMemoryManager model

Modelled from the spec: the manager owns a pool of chunks grouped by
compatibility class, carves regions out of them (first-fit across chunks,
or best-fit by smallest sufficient free range when the
reduce-fragmentation policy is enabled) and grows the pool with a chunk
of `max(minChunkSize, size)` bytes when no chunk fits. The platform
memory-type query is abstracted: a chunk is compatible with a request
exactly when the memory-type bits and property flags coincide. -/

/-- A region handed out by the manager: the index of its parent chunk in
the pool, its byte offset inside that chunk, and its size. -/
structure VKDeviceMemoryRegion where
  chunkIdx : Nat
  offset : Nat
  size : Nat
deriving DecidableEq, Repr

/-- The detached allocator state of `VKDeviceMemoryManager`: the two
configuration options and the chunk pool. -/
structure VKDeviceMemoryManager where
  minChunkSize : Nat
  reduceFragmentation : Bool
  chunks : List VKDeviceMemoryChunk
deriving DecidableEq, Repr

/-- Replace the element at position `i` by `f` of it; out-of-range
indices leave the list unchanged. -/
def updateAt (i : Nat) (f : α → α) : List α → List α
  | [] => []
  | x :: xs =>
    match i with
    | 0 => f x :: xs
    | i + 1 => x :: updateAt i f xs

/-- Apply `MarkOccupied` inside a chunk. -/
def chunkMarkOccupied (off size : Nat) (c : VKDeviceMemoryChunk) : VKDeviceMemoryChunk :=
  { c with blocks := markOccupied off size c.blocks }

/-- Whether a chunk belongs to the compatibility class of a request. -/
def chunkCompatible (c : VKDeviceMemoryChunk) (memoryTypeBits propertyFlags : Nat) : Bool :=
  decide (c.memoryTypeBits = memoryTypeBits) && decide (c.propertyFlags = propertyFlags)

/-- First-fit across chunks: the first compatible chunk whose
`TryReserve` succeeds, with the chunk's pool index and the offset. -/
def findFirstFit (size align memoryTypeBits propertyFlags : Nat) :
    List VKDeviceMemoryChunk → Option (Nat × Nat)
  | [] => none
  | c :: cs =>
    if chunkCompatible c memoryTypeBits propertyFlags then
      match tryReserve size align c.blocks with
      | some off => some (0, off)
      | none => (findFirstFit size align memoryTypeBits propertyFlags cs).map
          (fun p => (p.1 + 1, p.2))
    else
      (findFirstFit size align memoryTypeBits propertyFlags cs).map (fun p => (p.1 + 1, p.2))

/-- Best-fit across chunks: among the compatible chunks whose
`TryReserve` succeeds, the one whose accepted free range is smallest
(earliest chunk on ties). Returns index, offset and that range size. -/
def findBestFit (size align memoryTypeBits propertyFlags : Nat) :
    List VKDeviceMemoryChunk → Option (Nat × Nat × Nat)
  | [] => none
  | c :: cs =>
    if chunkCompatible c memoryTypeBits propertyFlags then
      match tryReserveFit size align c.blocks with
      | some (off, rsz) =>
        match findBestFit size align memoryTypeBits propertyFlags cs with
        | some (j, o2, r2) => if r2 < rsz then some (j + 1, o2, r2) else some (0, off, rsz)
        | none => some (0, off, rsz)
      | none =>
        (findBestFit size align memoryTypeBits propertyFlags cs).map (fun p => (p.1 + 1, p.2))
    else
      (findBestFit size align memoryTypeBits propertyFlags cs).map (fun p => (p.1 + 1, p.2))

/-- The placement search of `Allocate`: the chunk/offset pair selected by
the policy the `reduceFragmentation` option picks — best-fit across
chunks when enabled, first-fit otherwise. -/
def allocCandidate (mgr : VKDeviceMemoryManager) (size align memoryTypeBits propertyFlags : Nat) :
    Option (Nat × Nat) :=
  if mgr.reduceFragmentation then
    (findBestFit size align memoryTypeBits propertyFlags mgr.chunks).map
      (fun p => (p.1, p.2.1))
  else
    findFirstFit size align memoryTypeBits propertyFlags mgr.chunks

/-- Modelled from the spec: `Allocate(size, alignment, memoryTypeBits,
propertyFlags)`. Search the pool with the policy selected by
`reduceFragmentation`; if no chunk fits, append a fresh chunk of
`max(minChunkSize, size)` bytes and reserve in it. Returns `none` only
when even the fresh chunk cannot hold the request (degenerate sizes);
platform out-of-memory is outside the model. -/
def allocate (mgr : VKDeviceMemoryManager) (size align memoryTypeBits propertyFlags : Nat) :
    Option (VKDeviceMemoryRegion × VKDeviceMemoryManager) :=
  match allocCandidate mgr size align memoryTypeBits propertyFlags with
  | some (i, off) =>
    some (⟨i, off, size⟩,
      { mgr with chunks := updateAt i (chunkMarkOccupied off size) mgr.chunks })
  | none =>
    match tryReserve size align
        (newChunk (max mgr.minChunkSize size) memoryTypeBits propertyFlags).blocks with
    | some off =>
      some (⟨mgr.chunks.length, off, size⟩,
        { mgr with chunks := mgr.chunks ++
            [chunkMarkOccupied off size
              (newChunk (max mgr.minChunkSize size) memoryTypeBits propertyFlags)] })
    | none => none

/-- Modelled from the spec: `Release(MemoryRegion*)` is a no-op on a null
pointer and otherwise returns the region's byte range to its parent chunk,
which coalesces adjacent free ranges. -/
def releaseRegion (mgr : VKDeviceMemoryManager) :
    Option VKDeviceMemoryRegion → VKDeviceMemoryManager
  | none => mgr
  | some r => { mgr with chunks := updateAt r.chunkIdx (chunkRelease r.offset r.size) mgr.chunks }

/-- Well-formedness of the whole pool: every chunk's blocks partition its
byte range. -/
def mgrWF (mgr : VKDeviceMemoryManager) : Bool :=
  mgr.chunks.all chunkWF

/-! ### Chunk-level operation sequences (for the chunk invariant claim) -/

/-- One call against a single chunk: a reservation attempt (TryReserve
followed by MarkOccupied when it succeeds) or a release of a sub-range. -/
inductive ChunkOp where
  | reserve (size align : Nat)
  | free (off size : Nat)
deriving DecidableEq, Repr

/-- Apply one call to a chunk. -/
def applyChunkOp (c : VKDeviceMemoryChunk) : ChunkOp → VKDeviceMemoryChunk
  | .reserve size align =>
    match tryReserve size align c.blocks with
    | some off => chunkMarkOccupied off size c
    | none => c
  | .free off size => chunkRelease off size c

/-- Every state a chunk passes through while executing a call sequence,
the initial and final states included. -/
def chunkStates (c : VKDeviceMemoryChunk) : List ChunkOp → List VKDeviceMemoryChunk
  | [] => [c]
  | op :: ops => c :: chunkStates (applyChunkOp c op) ops

/-! ### OwnershipRegistry model

Modelled from the spec: a per-resource-type registry that takes exclusive
ownership of created objects (`TakeOwnership`), hands out a stable
identity, and on `Release` destroys the entry or signals
`UnknownResource` when the identity is not currently owned. Resources are
abstracted to a payload of type `Nat`; the identity is a counter that
stands for the object's address. -/

/-- One resource registry: the next fresh identity and the owned
entries, each an identity paired with its resource payload. -/
structure ResourceRegistry where
  nextId : Nat
  entries : List (Nat × Nat)
deriving DecidableEq, Repr

/-- Outcome of a registry release call. -/
inductive RegistryReleaseResult where
  | ok (reg : ResourceRegistry)
  | unknownResource
deriving DecidableEq, Repr

/-- Construct a resource, insert it into the registry, and return its
identity (the reference handed to the caller). -/
def takeOwnership (reg : ResourceRegistry) (res : Nat) : Nat × ResourceRegistry :=
  (reg.nextId, { nextId := reg.nextId + 1, entries := reg.entries ++ [(reg.nextId, res)] })

/-- Destroy the entry with identity `id`, or signal `UnknownResource`
when no such entry is owned. -/
def releaseResource (reg : ResourceRegistry) (id : Nat) : RegistryReleaseResult :=
  if reg.entries.any (fun e => e.1 == id) then
    .ok { nextId := reg.nextId, entries := reg.entries.filter (fun e => e.1 != id) }
  else
    .unknownResource

/-- Identities handed out so far are all below the fresh counter. -/
def registryWF (reg : ResourceRegistry) : Bool :=
  reg.entries.all (fun e => e.1 < reg.nextId)

/-! ### Renderer configuration (embedded from `VKRenderSystem.cpp`)

`VKRenderSystem::VKRenderSystem` constructs the device memory manager
with `rendererConfigVK->minDeviceMemoryAllocationSize` and
`rendererConfigVK->reduceDeviceMemoryFragmentation` when a configuration
was supplied, and with `1024*1024` and `false` otherwise. Only the two
allocator-relevant fields of `VulkanRendererConfiguration` are modelled
(the `application` descriptor does not reach the allocator). -/

/-- The allocator-relevant options of `VulkanRendererConfiguration`. -/
structure VulkanRendererConfiguration where
  minDeviceMemoryAllocationSize : Nat
  reduceDeviceMemoryFragmentation : Bool
deriving DecidableEq, Repr

/-- The device memory manager constructed by `VKRenderSystem`'s
constructor, starting with an empty pool. -/
def mkDeviceMemoryManager (cfg : Option VulkanRendererConfiguration) : VKDeviceMemoryManager :=
  { minChunkSize :=
      match cfg with
      | some c => c.minDeviceMemoryAllocationSize
      | none => 1024 * 1024
    reduceFragmentation :=
      match cfg with
      | some c => c.reduceDeviceMemoryFragmentation
      | none => false
    chunks := [] }

/-! ### Staging buffer control flow (embedded from `VKRenderSystem.cpp`)

`CreateBuffer` allocates a staging region, then either hands it to the
created buffer (`TakeStagingBuffer`) when
`desc.flags & (MapReadWriteAccess | DynamicUsage)` is non-zero, or
releases it to the manager. `CreateTexture` always releases its staging
region before returning. `WriteBuffer` allocates a fresh staging region
only when the buffer has no staging VkBuffer, and releases it before
returning. Flag words are modelled by their three relevant bits. -/

/-- The buffer-descriptor flag bits consulted by the staging logic. -/
structure BufferFlagBits where
  mapReadAccess : Bool
  mapWriteAccess : Bool
  dynamicUsage : Bool
deriving DecidableEq, Repr

/-- The test `(desc.flags & g_stagingBufferRelatedFlags) != 0` where
`g_stagingBufferRelatedFlags = MapReadWriteAccess | DynamicUsage`. -/
def stagingBufferRelatedFlags (f : BufferFlagBits) : Bool :=
  f.mapReadAccess || f.mapWriteAccess || f.dynamicUsage

/-- What happens to a staging memory region before the creating call
returns. -/
inductive StagingDisposal where
  | transferredToBuffer
  | releasedToManager
deriving DecidableEq, Repr

/-- Fate of the staging region allocated in `VKRenderSystem::CreateBuffer`. -/
def createBufferStagingDisposal (f : BufferFlagBits) : StagingDisposal :=
  if stagingBufferRelatedFlags f then .transferredToBuffer else .releasedToManager

/-- Fate of the staging region allocated in `VKRenderSystem::CreateTexture`. -/
def createTextureStagingDisposal : StagingDisposal :=
  .releasedToManager

/-- Fate of the staging region allocated in `VKRenderSystem::WriteBuffer`:
when the buffer already owns a staging VkBuffer no region is allocated at
all, otherwise the fresh region is released before returning. -/
def writeBufferStagingDisposal (hasStagingVkBuffer : Bool) : Option StagingDisposal :=
  if hasStagingVkBuffer then none else some .releasedToManager

/-! ### ComPtr (embedded from `ComPtr.h`)

The pointer slot is modelled as an optional pointee identity. Each
operation additionally reports the net change it applies to the pointee's
reference count: `AddRef()` contributes `+1` and `Release()` contributes
`-1`, exactly where the source invokes them. -/

/-- The state of one `ComPtr`: its internal pointer. -/
structure ComPtrState where
  ptr : Option Nat
deriving DecidableEq, Repr

/-- The private `AddRef()`: increments the count only for a non-null
pointer. -/
def comPtrAddRefDelta (c : ComPtrState) : Int :=
  match c.ptr with
  | some _ => 1
  | none => 0

/-- The private `Release()`: decrements the count only for a non-null
pointer, and nulls the slot. -/
def comPtrReleaseOp (c : ComPtrState) : ComPtrState × Int :=
  match c.ptr with
  | some _ => (⟨none⟩, -1)
  | none => (c, 0)

/-- `Swap`: exchange the two internal pointers. -/
def comPtrSwap (a b : ComPtrState) : ComPtrState × ComPtrState :=
  (⟨b.ptr⟩, ⟨a.ptr⟩)

/-- The copy constructor: copy the pointer, then `AddRef()`. Returns the
new object and the reference-count change. -/
def comPtrCopyConstruct (rhs : ComPtrState) : ComPtrState × Int :=
  (⟨rhs.ptr⟩, comPtrAddRefDelta ⟨rhs.ptr⟩)

/-- The move constructor: initialise with `nullptr`, then (the freshly
constructed object being distinct from `rhs`) `Swap(rhs)`. Returns the
new object, the moved-from object and the reference-count change. -/
def comPtrMoveConstruct (rhs : ComPtrState) : ComPtrState × ComPtrState × Int :=
  let self : ComPtrState := ⟨none⟩
  let sw := comPtrSwap self rhs
  (sw.1, sw.2, 0)

/-- `Detach()`: hand the internal pointer to the caller and null the
slot, touching no reference count. -/
def comPtrDetach (c : ComPtrState) : Option Nat × ComPtrState × Int :=
  (c.ptr, ⟨none⟩, 0)

/-! ### Helper lemmas about the manager -/

theorem updateAt_getElem {l : List α} {i : Nat} {f : α → α} :
    (updateAt i f l)[i]? = (l[i]?).map f := by
  induction l generalizing i with
  | nil => simp [updateAt]
  | cons x xs ih =>
    match i with
    | 0 => simp [updateAt]
    | i + 1 => simpa [updateAt] using ih

theorem getElem_append_singleton (l : List α) (c : α) : (l ++ [c])[l.length]? = some c := by
  induction l with
  | nil => rfl
  | cons x xs ih =>
    rw [List.cons_append, List.length_cons, List.getElem?_cons_succ]
    exact ih

theorem findFirstFit_sound {cs : List VKDeviceMemoryChunk} {size align tb pf i off : Nat}
    (h : findFirstFit size align tb pf cs = some (i, off)) :
    ∃ c, cs[i]? = some c ∧ chunkCompatible c tb pf = true ∧
      tryReserve size align c.blocks = some off := by
  induction cs generalizing i off with
  | nil => simp [findFirstFit] at h
  | cons c cs ih =>
    rw [findFirstFit] at h
    by_cases hcomp : chunkCompatible c tb pf = true
    · rw [if_pos hcomp] at h
      match hres : tryReserve size align c.blocks with
      | some o =>
        rw [hres, Option.some_inj, Prod.mk.injEq] at h
        obtain ⟨h1, h2⟩ := h
        subst h1
        subst h2
        exact ⟨c, by simp, hcomp, hres⟩
      | none =>
        rw [hres] at h
        match hrec : findFirstFit size align tb pf cs with
        | some (j, o2) =>
          rw [hrec] at h
          simp at h
          obtain ⟨h1, h2⟩ := h
          subst h1
          subst h2
          obtain ⟨d, hd, hdc, hdr⟩ := ih hrec
          exact ⟨d, by simpa using hd, hdc, hdr⟩
        | none => rw [hrec] at h; simp at h
    · rw [if_neg hcomp] at h
      match hrec : findFirstFit size align tb pf cs with
      | some (j, o2) =>
        rw [hrec] at h
        simp at h
        obtain ⟨h1, h2⟩ := h
        subst h1
        subst h2
        obtain ⟨d, hd, hdc, hdr⟩ := ih hrec
        exact ⟨d, by simpa using hd, hdc, hdr⟩
      | none => rw [hrec] at h; simp at h

theorem findBestFit_sound {cs : List VKDeviceMemoryChunk} {size align tb pf i off rsz : Nat}
    (h : findBestFit size align tb pf cs = some (i, off, rsz)) :
    ∃ c, cs[i]? = some c ∧ chunkCompatible c tb pf = true ∧
      tryReserveFit size align c.blocks = some (off, rsz) := by
  induction cs generalizing i off rsz with
  | nil => simp [findBestFit] at h
  | cons c cs ih =>
    by_cases hcomp : chunkCompatible c tb pf = true
    · rcases hres : tryReserveFit size align c.blocks with _ | ⟨o, r⟩
      · rcases hrec : findBestFit size align tb pf cs with _ | ⟨j, o2, r2⟩
        · rw [findBestFit, if_pos hcomp, hres, hrec] at h
          simp at h
        · rw [findBestFit, if_pos hcomp, hres, hrec] at h
          simp at h
          obtain ⟨h1, h2, h3⟩ := h
          subst h1
          subst h2
          subst h3
          obtain ⟨d, hd, hdc, hdr⟩ := ih hrec
          exact ⟨d, by simpa using hd, hdc, hdr⟩
      · rcases hrec : findBestFit size align tb pf cs with _ | ⟨j, o2, r2⟩
        · rw [findBestFit, if_pos hcomp, hres, hrec] at h
          simp at h
          obtain ⟨h1, h2, h3⟩ := h
          subst h1
          subst h2
          subst h3
          exact ⟨c, by simp, hcomp, hres⟩
        · rw [findBestFit, if_pos hcomp, hres, hrec] at h
          by_cases hlt : r2 < r
          · simp [hlt] at h
            obtain ⟨h1, h2, h3⟩ := h
            subst h1
            subst h2
            subst h3
            obtain ⟨d, hd, hdc, hdr⟩ := ih hrec
            exact ⟨d, by simpa using hd, hdc, hdr⟩
          · simp [hlt] at h
            obtain ⟨h1, h2, h3⟩ := h
            subst h1
            subst h2
            subst h3
            exact ⟨c, by simp, hcomp, hres⟩
    · rcases hrec : findBestFit size align tb pf cs with _ | ⟨j, o2, r2⟩
      · rw [findBestFit, if_neg hcomp, hrec] at h
        simp at h
      · rw [findBestFit, if_neg hcomp, hrec] at h
        simp at h
        obtain ⟨h1, h2, h3⟩ := h
        subst h1
        subst h2
        subst h3
        obtain ⟨d, hd, hdc, hdr⟩ := ih hrec
        exact ⟨d, by simpa using hd, hdc, hdr⟩

theorem newChunk_wf (total tb pf : Nat) : chunkWF (newChunk total tb pf) = true := by
  unfold chunkWF newChunk
  by_cases h : 0 < total
  · simp [h, chainTo]
  · simp [h, chainTo]
    omega

theorem alignUp_zero {a : Nat} (ha : 0 < a) : alignUp 0 a = 0 := by
  unfold alignUp
  rw [Nat.div_eq_of_lt (by omega), Nat.zero_mul]

theorem tryReserve_newChunk {size align total tb pf : Nat}
    (hs : 0 < size) (ha : 0 < align) (hfit : size ≤ total) :
    tryReserve size align (newChunk total tb pf).blocks = some 0 := by
  have htot : 0 < total := by omega
  have hblocks : (newChunk total tb pf).blocks = [⟨0, total, false⟩] := by
    simp [newChunk, htot]
  rw [hblocks, tryReserve, tryReserveFit]
  rw [if_pos ?cond]
  case cond =>
    refine ⟨rfl, hs, ?_⟩
    show alignUp 0 align + size ≤ 0 + total
    rw [alignUp_zero ha]
    omega
  show Option.map Prod.fst (some (alignUp 0 align, total)) = some 0
  rw [alignUp_zero ha]
  rfl

theorem tryReserve_pos {bs : List VKDeviceMemoryBlock} {size align off : Nat}
    (h : tryReserve size align bs = some off) : 0 < size := by
  unfold tryReserve at h
  match hfit : tryReserveFit size align bs with
  | none => rw [hfit] at h; simp at h
  | some (o, r) => exact tryReserveFit_pos hfit

theorem chunkMarkOccupied_total (off size : Nat) (c : VKDeviceMemoryChunk) :
    (chunkMarkOccupied off size c).total = c.total := rfl

theorem chunkRelease_total (off size : Nat) (c : VKDeviceMemoryChunk) :
    (chunkRelease off size c).total = c.total := rfl

theorem chunkMarkOccupied_wf {c : VKDeviceMemoryChunk} {off size : Nat}
    (hwf : chunkWF c = true) (hs : 0 < size) :
    chunkWF (chunkMarkOccupied off size c) = true := by
  unfold chunkWF chunkMarkOccupied at *
  exact markOccupied_chain hwf hs

theorem chunkRelease_wf {c : VKDeviceMemoryChunk} {off size : Nat}
    (hwf : chunkWF c = true) :
    chunkWF (chunkRelease off size c) = true := by
  unfold chunkWF chunkRelease at *
  exact mergeFree_chain (releaseBlocks_chain hwf)

theorem applyChunkOp_total (c : VKDeviceMemoryChunk) (op : ChunkOp) :
    (applyChunkOp c op).total = c.total := by
  cases op with
  | reserve size align =>
    rcases hres : tryReserve size align c.blocks with _ | off <;>
      simp [applyChunkOp, hres, chunkMarkOccupied]
  | free off size => simp [applyChunkOp, chunkRelease]

theorem applyChunkOp_wf {c : VKDeviceMemoryChunk} (hwf : chunkWF c = true) (op : ChunkOp) :
    chunkWF (applyChunkOp c op) = true := by
  cases op with
  | reserve size align =>
    rcases hres : tryReserve size align c.blocks with _ | off
    · simpa [applyChunkOp, hres] using hwf
    · have heq : applyChunkOp c (.reserve size align) = chunkMarkOccupied off size c := by
        simp [applyChunkOp, hres]
      rw [heq]
      exact chunkMarkOccupied_wf hwf (tryReserve_pos hres)
  | free off size =>
    have heq : applyChunkOp c (.free off size) = chunkRelease off size c := rfl
    rw [heq]
    exact chunkRelease_wf hwf

theorem chunkStates_wf {c : VKDeviceMemoryChunk} (hwf : chunkWF c = true)
    (ops : List ChunkOp) :
    ∀ d ∈ chunkStates c ops, chunkWF d = true ∧ d.total = c.total := by
  induction ops generalizing c with
  | nil =>
    intro d hd
    rw [chunkStates] at hd
    have hdc : d = c := by simpa using hd
    subst hdc
    exact ⟨hwf, rfl⟩
  | cons op ops ih =>
    intro d hd
    rw [chunkStates] at hd
    rcases List.mem_cons.mp hd with hdc | hd
    · subst hdc
      exact ⟨hwf, rfl⟩
    · have := ih (applyChunkOp_wf hwf op) d hd
      exact ⟨this.1, this.2.trans (applyChunkOp_total c op)⟩

theorem chainTo_disjoint {bs : List VKDeviceMemoryBlock} {s t : Nat}
    (h : chainTo s t bs = true) :
    ∀ b1 ∈ bs, ∀ b2 ∈ bs, b1 ≠ b2 →
      b1.offset + b1.size ≤ b2.offset ∨ b2.offset + b2.size ≤ b1.offset := by
  induction bs generalizing s with
  | nil => intro b1 h1; cases h1
  | cons x xs ih =>
    rw [chainTo_cons] at h
    intro b1 h1 b2 h2 hne
    rcases List.mem_cons.mp h1 with heq1 | hmem1
    · rcases List.mem_cons.mp h2 with heq2 | hmem2
      · exact absurd (heq1.trans heq2.symm) hne
      · have hb := chainTo_bounds h.2.2 b2 hmem2
        rw [heq1]
        left
        omega
    · rcases List.mem_cons.mp h2 with heq2 | hmem2
      · have hb := chainTo_bounds h.2.2 b1 hmem1
        rw [heq2]
        right
        omega
      · exact ih h.2.2 b1 hmem1 b2 hmem2 hne

theorem mem_of_getElem {l : List α} {i : Nat} {a : α} (h : l[i]? = some a) : a ∈ l := by
  induction l generalizing i with
  | nil => simp at h
  | cons x xs ih =>
    match i with
    | 0 =>
      simp at h
      exact h ▸ List.mem_cons_self x xs
    | i + 1 =>
      rw [List.getElem?_cons_succ] at h
      exact List.mem_cons_of_mem x (ih h)

theorem allocCandidate_sound {mgr : VKDeviceMemoryManager} {size align tb pf i off : Nat}
    (h : allocCandidate mgr size align tb pf = some (i, off)) :
    ∃ c, mgr.chunks[i]? = some c ∧ chunkCompatible c tb pf = true ∧
      tryReserve size align c.blocks = some off := by
  unfold allocCandidate at h
  by_cases hrf : mgr.reduceFragmentation
  · rw [if_pos hrf] at h
    match hbest : findBestFit size align tb pf mgr.chunks with
    | none => rw [hbest] at h; simp at h
    | some (j, o, r) =>
      rw [hbest] at h
      simp at h
      obtain ⟨h1, h2⟩ := h
      subst h1
      subst h2
      obtain ⟨c, hc, hcomp, hfit⟩ := findBestFit_sound hbest
      exact ⟨c, hc, hcomp, by rw [tryReserve, hfit]; rfl⟩
  · rw [if_neg hrf] at h
    exact findFirstFit_sound h

theorem findFirstFit_none {cs : List VKDeviceMemoryChunk} {size align tb pf : Nat}
    (hnone : ∀ c ∈ cs, chunkCompatible c tb pf = true →
      tryReserveFit size align c.blocks = none) :
    findFirstFit size align tb pf cs = none := by
  induction cs with
  | nil => rfl
  | cons c cs ih =>
    have h2 := ih (fun d hd hdc => hnone d (List.mem_cons_of_mem _ hd) hdc)
    by_cases hcomp : chunkCompatible c tb pf = true
    · have h1 := hnone c (List.mem_cons_self c cs) hcomp
      simp [findFirstFit, hcomp, tryReserve, h1, h2]
    · simp [findFirstFit, hcomp, h2]

theorem findBestFit_none {cs : List VKDeviceMemoryChunk} {size align tb pf : Nat}
    (hnone : ∀ c ∈ cs, chunkCompatible c tb pf = true →
      tryReserveFit size align c.blocks = none) :
    findBestFit size align tb pf cs = none := by
  induction cs with
  | nil => rfl
  | cons c cs ih =>
    have h2 := ih (fun d hd hdc => hnone d (List.mem_cons_of_mem _ hd) hdc)
    by_cases hcomp : chunkCompatible c tb pf = true
    · have h1 := hnone c (List.mem_cons_self c cs) hcomp
      simp [findBestFit, hcomp, h1, h2]
    · simp [findBestFit, hcomp, h2]

theorem allocCandidate_none {mgr : VKDeviceMemoryManager} {size align tb pf : Nat}
    (hnone : ∀ c ∈ mgr.chunks, chunkCompatible c tb pf = true →
      tryReserveFit size align c.blocks = none) :
    allocCandidate mgr size align tb pf = none := by
  unfold allocCandidate
  by_cases hrf : mgr.reduceFragmentation
  · rw [if_pos hrf, findBestFit_none hnone]
    rfl
  · rw [if_neg hrf]
    exact findFirstFit_none hnone

theorem mgrWF_chunk {mgr : VKDeviceMemoryManager} {c : VKDeviceMemoryChunk}
    (hwf : mgrWF mgr = true) (hc : c ∈ mgr.chunks) : chunkWF c = true :=
  List.all_eq_true.mp hwf c hc

/-! ### Claim theorems -/

/-- C1: For every sequence of Allocate and Release calls against a single
MemoryChunk, at every intermediate state the chunk's occupied sub-ranges
are pairwise non-overlapping, each occupied sub-range lies within
`[0, chunk size)`, and the union of the occupied and free sub-ranges
equals `[0, total size)` exactly. -/
theorem chunk_invariant_under_call_sequences (total tb pf : Nat) (ops : List ChunkOp)
    (c : VKDeviceMemoryChunk) (hc : c ∈ chunkStates (newChunk total tb pf) ops) :
    (∀ b1 ∈ c.blocks, ∀ b2 ∈ c.blocks, b1.occupied = true → b2.occupied = true →
      b1 ≠ b2 → b1.offset + b1.size ≤ b2.offset ∨ b2.offset + b2.size ≤ b1.offset) ∧
    (∀ b ∈ c.blocks, b.occupied = true → b.offset + b.size ≤ total) ∧
    (∀ x : Nat, x < total ↔ ∃ b ∈ c.blocks, b.offset ≤ x ∧ x < b.offset + b.size) := by
  obtain ⟨hwf, htot⟩ := chunkStates_wf (newChunk_wf total tb pf) ops c hc
  have htot2 : c.total = total := htot
  rw [chunkWF, htot2] at hwf
  refine ⟨?_, ?_, ?_⟩
  · intro b1 h1 b2 h2 _ _ hne
    exact chainTo_disjoint hwf b1 h1 b2 h2 hne
  · intro b hb _
    exact (chainTo_bounds hwf b hb).2
  · intro x
    constructor
    · intro hx
      exact chainTo_cover hwf x (Nat.zero_le x) hx
    · rintro ⟨b, hb, hb1, hb2⟩
      have := chainTo_bounds hwf b hb
      omega

/-- Witness for C1: a two-state trace (fresh 10-byte chunk, then a
4-byte reservation) whose second state satisfies the invariant. -/
theorem chunk_invariant_under_call_sequences_witness :
    (⟨10, 7, 1, [⟨0, 4, true⟩, ⟨4, 6, false⟩]⟩ : VKDeviceMemoryChunk) ∈
      chunkStates (newChunk 10 7 1) [ChunkOp.reserve 4 1] ∧
    ((∀ b1 ∈ ([⟨0, 4, true⟩, ⟨4, 6, false⟩] : List VKDeviceMemoryBlock),
        ∀ b2 ∈ ([⟨0, 4, true⟩, ⟨4, 6, false⟩] : List VKDeviceMemoryBlock),
        b1.occupied = true → b2.occupied = true → b1 ≠ b2 →
        b1.offset + b1.size ≤ b2.offset ∨ b2.offset + b2.size ≤ b1.offset) ∧
      (∀ b ∈ ([⟨0, 4, true⟩, ⟨4, 6, false⟩] : List VKDeviceMemoryBlock),
        b.occupied = true → b.offset + b.size ≤ 10) ∧
      (∀ x : Nat, x < 10 ↔ ∃ b ∈ ([⟨0, 4, true⟩, ⟨4, 6, false⟩] : List VKDeviceMemoryBlock),
        b.offset ≤ x ∧ x < b.offset + b.size)) :=
  ⟨by decide,
   chunk_invariant_under_call_sequences 10 7 1 [ChunkOp.reserve 4 1]
     ⟨10, 7, 1, [⟨0, 4, true⟩, ⟨4, 6, false⟩]⟩ (by decide)⟩

/-- C2: every region returned by `Allocate(size, alignment, memoryTypeBits,
propertyFlags)` satisfies `offset % alignment == 0` and
`offset + size <= total size of its parent chunk`. -/
theorem allocate_region_aligned_within_chunk (mgr : VKDeviceMemoryManager)
    (size align tb pf : Nat) (r : VKDeviceMemoryRegion) (m : VKDeviceMemoryManager)
    (ha : 0 < align) (hwf : mgrWF mgr = true)
    (h : allocate mgr size align tb pf = some (r, m)) :
    r.offset % align = 0 ∧
    ∃ c, m.chunks[r.chunkIdx]? = some c ∧ r.offset + r.size ≤ c.total := by
  unfold allocate at h
  match hcand : allocCandidate mgr size align tb pf with
  | some (i, off) =>
    rw [hcand] at h
    simp at h
    obtain ⟨hr, hm⟩ := h
    obtain ⟨c, hc, hcomp, hres⟩ := allocCandidate_sound hcand
    have hcwf : chunkWF c = true := mgrWF_chunk hwf (mem_of_getElem hc)
    rw [chunkWF] at hcwf
    obtain ⟨hmod, hbound⟩ := tryReserve_aligned_bounded ha hcwf hres
    subst hr
    refine ⟨hmod, ⟨chunkMarkOccupied off size c, ?_, ?_⟩⟩
    · rw [← hm]
      show (updateAt i (chunkMarkOccupied off size) mgr.chunks)[i]? = _
      rw [updateAt_getElem, hc]
      rfl
    · rw [chunkMarkOccupied_total]
      exact hbound
  | none =>
    rw [hcand] at h
    match hres : tryReserve size align
        (newChunk (max mgr.minChunkSize size) tb pf).blocks with
    | none => rw [hres] at h; simp at h
    | some off =>
      rw [hres] at h
      simp at h
      obtain ⟨hr, hm⟩ := h
      have hnwf := newChunk_wf (max mgr.minChunkSize size) tb pf
      rw [chunkWF] at hnwf
      obtain ⟨hmod, hbound⟩ := tryReserve_aligned_bounded ha hnwf hres
      subst hr
      refine ⟨hmod,
        ⟨chunkMarkOccupied off size (newChunk (max mgr.minChunkSize size) tb pf), ?_, ?_⟩⟩
      · rw [← hm]
        show (mgr.chunks ++ [_])[mgr.chunks.length]? = _
        exact getElem_append_singleton _ _
      · rw [chunkMarkOccupied_total]
        exact hbound

/-- Witness for C2: allocating 4 bytes with alignment 2 from an empty
pool yields an aligned region that fits inside its chunk. -/
theorem allocate_region_aligned_within_chunk_witness :
    0 < 2 ∧ mgrWF ⟨1024, false, []⟩ = true ∧
    ((⟨0, 0, 4⟩ : VKDeviceMemoryRegion).offset % 2 = 0 ∧
      ∃ c, (⟨1024, false,
          [chunkMarkOccupied 0 4 (newChunk (max 1024 4) 7 1)]⟩ :
            VKDeviceMemoryManager).chunks[(⟨0, 0, 4⟩ : VKDeviceMemoryRegion).chunkIdx]? =
          some c ∧
        (⟨0, 0, 4⟩ : VKDeviceMemoryRegion).offset + (⟨0, 0, 4⟩ : VKDeviceMemoryRegion).size ≤
          c.total) :=
  ⟨by decide, by decide,
   allocate_region_aligned_within_chunk ⟨1024, false, []⟩ 4 2 7 1 ⟨0, 0, 4⟩
     ⟨1024, false, [chunkMarkOccupied 0 4 (newChunk (max 1024 4) 7 1)]⟩
     (by decide) (by decide) (by decide)⟩

/-- C5: when no existing compatible chunk can satisfy the request, the
manager appends exactly one new chunk sized `max(minChunkSize, size)` and
the retried reservation on it succeeds, so `Allocate` never fails from
pool exhaustion alone. -/
theorem allocate_pool_growth (mgr : VKDeviceMemoryManager) (size align tb pf : Nat)
    (hs : 0 < size) (ha : 0 < align)
    (hnone : ∀ c ∈ mgr.chunks, chunkCompatible c tb pf = true →
      tryReserveFit size align c.blocks = none) :
    allocate mgr size align tb pf =
      some (⟨mgr.chunks.length, 0, size⟩,
        { mgr with chunks := mgr.chunks ++
            [chunkMarkOccupied 0 size (newChunk (max mgr.minChunkSize size) tb pf)] }) ∧
    size ≤ max mgr.minChunkSize size ∧
    (newChunk (max mgr.minChunkSize size) tb pf).total = max mgr.minChunkSize size := by
  refine ⟨?_, Nat.le_max_right _ _, rfl⟩
  unfold allocate
  rw [allocCandidate_none hnone,
    tryReserve_newChunk hs ha (Nat.le_max_right mgr.minChunkSize size)]

/-- Witness for C5: growing an empty pool with a 4-byte request. -/
theorem allocate_pool_growth_witness :
    0 < 4 ∧ 0 < 2 ∧
    (allocate ⟨1024, false, []⟩ 4 2 7 1 =
      some (⟨0, 0, 4⟩,
        ⟨1024, false, [chunkMarkOccupied 0 4 (newChunk (max 1024 4) 7 1)]⟩) ∧
     4 ≤ max 1024 4 ∧
     (newChunk (max 1024 4) 7 1).total = max 1024 4) :=
  ⟨by decide, by decide,
   allocate_pool_growth ⟨1024, false, []⟩ 4 2 7 1 (by decide) (by decide)
     (by intro c hc hcc; exact absurd hc (List.not_mem_nil c))⟩

/-- C3: allocating three adjacent 256-byte regions A, B, C in one chunk,
releasing B and then A, leaves a single free range covering exactly the
bytes of A and B (`[0, 512)`), and a subsequent 512-byte allocation with
alignment 1 succeeds in that range without growing the chunk pool. -/
theorem release_coalesces_adjacent_free_ranges :
    allocate ⟨768, false, []⟩ 256 1 1665 1 =
      some (⟨0, 0, 256⟩, ⟨768, false, [⟨768, 1665, 1,
        [⟨0, 256, true⟩, ⟨256, 512, false⟩]⟩]⟩) ∧
    allocate ⟨768, false, [⟨768, 1665, 1, [⟨0, 256, true⟩, ⟨256, 512, false⟩]⟩]⟩
        256 1 1665 1 =
      some (⟨0, 256, 256⟩, ⟨768, false, [⟨768, 1665, 1,
        [⟨0, 256, true⟩, ⟨256, 256, true⟩, ⟨512, 256, false⟩]⟩]⟩) ∧
    allocate ⟨768, false, [⟨768, 1665, 1,
        [⟨0, 256, true⟩, ⟨256, 256, true⟩, ⟨512, 256, false⟩]⟩]⟩ 256 1 1665 1 =
      some (⟨0, 512, 256⟩, ⟨768, false, [⟨768, 1665, 1,
        [⟨0, 256, true⟩, ⟨256, 256, true⟩, ⟨512, 256, true⟩]⟩]⟩) ∧
    releaseRegion ⟨768, false, [⟨768, 1665, 1,
        [⟨0, 256, true⟩, ⟨256, 256, true⟩, ⟨512, 256, true⟩]⟩]⟩ (some ⟨0, 256, 256⟩) =
      ⟨768, false, [⟨768, 1665, 1,
        [⟨0, 256, true⟩, ⟨256, 256, false⟩, ⟨512, 256, true⟩]⟩]⟩ ∧
    releaseRegion ⟨768, false, [⟨768, 1665, 1,
        [⟨0, 256, true⟩, ⟨256, 256, false⟩, ⟨512, 256, true⟩]⟩]⟩ (some ⟨0, 0, 256⟩) =
      ⟨768, false, [⟨768, 1665, 1, [⟨0, 512, false⟩, ⟨512, 256, true⟩]⟩]⟩ ∧
    ([⟨0, 512, false⟩, ⟨512, 256, true⟩] : List VKDeviceMemoryBlock).filter
        (fun b => !b.occupied) = [⟨0, 512, false⟩] ∧
    allocate ⟨768, false, [⟨768, 1665, 1, [⟨0, 512, false⟩, ⟨512, 256, true⟩]⟩]⟩
        512 1 1665 1 =
      some (⟨0, 0, 512⟩, ⟨768, false, [⟨768, 1665, 1,
        [⟨0, 512, true⟩, ⟨512, 256, true⟩]⟩]⟩) ∧
    (⟨768, false, [⟨768, 1665, 1, [⟨0, 512, true⟩, ⟨512, 256, true⟩]⟩]⟩ :
      VKDeviceMemoryManager).chunks.length = 1 := by
  decide

/-- C4: in a pool holding a sufficient smaller free gap (300 bytes at
offset 100) before a larger free gap (424 bytes at offset 600),
`Allocate` with `reduceFragmentation = false` places the 200-byte region
in the first sufficient gap, and with `reduceFragmentation = true` in the
smallest sufficient gap — the same gap here, while with the larger gap
first (across two chunks) the two policies diverge, so the placement is
controlled by the single boolean. -/
theorem fit_policy_controlled_by_reduce_fragmentation :
    (allocate ⟨1024, false, [⟨1024, 7, 1,
        [⟨0, 100, true⟩, ⟨100, 300, false⟩, ⟨400, 200, true⟩, ⟨600, 424, false⟩]⟩]⟩
        200 1 7 1).map (fun p => (p.1.chunkIdx, p.1.offset)) = some (0, 100) ∧
    (allocate ⟨1024, true, [⟨1024, 7, 1,
        [⟨0, 100, true⟩, ⟨100, 300, false⟩, ⟨400, 200, true⟩, ⟨600, 424, false⟩]⟩]⟩
        200 1 7 1).map (fun p => (p.1.chunkIdx, p.1.offset)) = some (0, 100) ∧
    (([⟨0, 100, true⟩, ⟨100, 300, false⟩, ⟨400, 200, true⟩, ⟨600, 424, false⟩] :
        List VKDeviceMemoryBlock).filter
      (fun b => !b.occupied && decide (200 ≤ b.size))).map (fun b => b.offset) = [100, 600] ∧
    (300 : Nat) < 424 ∧
    (allocate ⟨1024, false, [⟨1024, 7, 1, [⟨0, 400, true⟩, ⟨400, 624, false⟩]⟩,
        ⟨1024, 7, 1, [⟨0, 700, true⟩, ⟨700, 300, false⟩]⟩]⟩
        200 1 7 1).map (fun p => (p.1.chunkIdx, p.1.offset)) = some (0, 400) ∧
    (allocate ⟨1024, true, [⟨1024, 7, 1, [⟨0, 400, true⟩, ⟨400, 624, false⟩]⟩,
        ⟨1024, 7, 1, [⟨0, 700, true⟩, ⟨700, 300, false⟩]⟩]⟩
        200 1 7 1).map (fun p => (p.1.chunkIdx, p.1.offset)) = some (1, 700) := by
  decide

/-- C6: releasing a created resource destroys exactly its entry, and a
second release of the same reference signals `UnknownResource` without
touching the remaining entries. -/
theorem registry_double_release_unknown_resource (reg : ResourceRegistry) (res : Nat)
    (hwf : registryWF reg = true) :
    releaseResource (takeOwnership reg res).2 (takeOwnership reg res).1 =
      .ok ⟨reg.nextId + 1, reg.entries⟩ ∧
    releaseResource ⟨reg.nextId + 1, reg.entries⟩ (takeOwnership reg res).1 =
      .unknownResource := by
  have hlt : ∀ e ∈ reg.entries, e.1 < reg.nextId := by
    intro e he
    have := List.all_eq_true.mp hwf e he
    simpa using this
  have hkeep : reg.entries.filter (fun e => e.1 != reg.nextId) = reg.entries := by
    rw [List.filter_eq_self]
    intro e he
    have := hlt e he
    simp only [bne_iff_ne, ne_eq]
    omega
  have hnew : (reg.entries ++ [(reg.nextId, res)]).any (fun e => e.1 == reg.nextId) = true := by
    rw [List.any_append]
    simp
  have hold : reg.entries.any (fun e => e.1 == reg.nextId) = false := by
    rw [List.any_eq_false]
    intro e he
    have := hlt e he
    simp only [beq_iff_eq]
    omega
  constructor
  · show releaseResource ⟨reg.nextId + 1, reg.entries ++ [(reg.nextId, res)]⟩ reg.nextId = _
    unfold releaseResource
    rw [if_pos hnew]
    show RegistryReleaseResult.ok
        ⟨reg.nextId + 1, (reg.entries ++ [(reg.nextId, res)]).filter
          (fun e => e.1 != reg.nextId)⟩ = _
    rw [List.filter_append, hkeep]
    simp
  · unfold releaseResource
    show (if reg.entries.any (fun e => e.1 == reg.nextId) = true then _ else _) = _
    rw [if_neg (by rw [hold]; exact Bool.false_ne_true)]

/-- Witness for C6: a registry holding one prior entry. -/
theorem registry_double_release_unknown_resource_witness :
    registryWF ⟨2, [(0, 7)]⟩ = true ∧
    (releaseResource (takeOwnership ⟨2, [(0, 7)]⟩ 9).2 (takeOwnership ⟨2, [(0, 7)]⟩ 9).1 =
      .ok ⟨3, [(0, 7)]⟩ ∧
     releaseResource ⟨3, [(0, 7)]⟩ (takeOwnership ⟨2, [(0, 7)]⟩ 9).1 =
      .unknownResource) :=
  ⟨by decide, registry_double_release_unknown_resource ⟨2, [(0, 7)]⟩ 9 (by decide)⟩

/-- C7: releasing a null region pointer is a safe no-op: the manager,
its chunks and all live regions are unchanged. -/
theorem release_null_region_noop :
    ∀ mgr : VKDeviceMemoryManager,
      releaseRegion mgr none = mgr ∧ (releaseRegion mgr none).chunks = mgr.chunks :=
  fun _ => ⟨rfl, rfl⟩

/-- C8: without a caller-supplied renderer configuration the device
memory manager is built with `minChunkSize = 1 MiB` and
`reduceFragmentation = false`; a supplied configuration feeds exactly its
two allocator options through. -/
theorem default_memory_manager_configuration :
    mkDeviceMemoryManager none =
      ⟨1024 * 1024, false, []⟩ ∧
    (mkDeviceMemoryManager none).minChunkSize = 1048576 ∧
    (mkDeviceMemoryManager none).reduceFragmentation = false ∧
    (∀ cfg : VulkanRendererConfiguration,
      mkDeviceMemoryManager (some cfg) =
        ⟨cfg.minDeviceMemoryAllocationSize, cfg.reduceDeviceMemoryFragmentation, []⟩) :=
  ⟨by decide, by decide, rfl, fun _ => rfl⟩

/-- C9: the staging region of `CreateBuffer` is transferred to the buffer
exactly when the flags request map access or dynamic usage and released
to the manager otherwise; `CreateTexture` always releases it, and
`WriteBuffer` either allocates no staging region or releases the one it
allocates — no path leaves a staging region unaccounted for. -/
theorem staging_region_never_leaked :
    (∀ f : BufferFlagBits,
      (createBufferStagingDisposal f = .transferredToBuffer ↔
        stagingBufferRelatedFlags f = true) ∧
      (createBufferStagingDisposal f = .transferredToBuffer ∨
        createBufferStagingDisposal f = .releasedToManager)) ∧
    createTextureStagingDisposal = .releasedToManager ∧
    (∀ hasStaging : Bool,
      writeBufferStagingDisposal hasStaging = none ∨
      writeBufferStagingDisposal hasStaging = some .releasedToManager) := by
  refine ⟨?_, rfl, ?_⟩
  · intro f
    unfold createBufferStagingDisposal
    by_cases hf : stagingBufferRelatedFlags f = true
    · simp [hf]
    · simp [hf]
  · intro hasStaging
    unfold writeBufferStagingDisposal
    by_cases hb : hasStaging = true
    · simp [hb]
    · simp [hb]

/-- C10: move construction and `Detach` hand the non-null pointer to the
destination, leave the source holding `nullptr`, and apply no change to
the pointee's reference count (no `AddRef`, no `Release`). -/
theorem comptr_move_detach_transfer :
    ∀ p : Nat,
      comPtrMoveConstruct ⟨some p⟩ = (⟨some p⟩, ⟨none⟩, 0) ∧
      comPtrDetach ⟨some p⟩ = (some p, ⟨none⟩, 0) :=
  fun _ => ⟨rfl, rfl⟩

end LLGL
